import Mathlib

/-!
Shallow embedding of the tinyrand crate (obsidiandynamics/tinyrand).

The generator is modelled as an infinite stream of native 64-bit draws
(`GenState.draws`) together with the number of draws consumed so far
(`GenState.idx`): every concrete `Rand` implementation in the crate provides
`next_u64` as its native primitive, and every derived operation is a pure
function of the drawn words.  Machine integers are modelled as `Nat` with
explicit `% 2^w` where the source truncates; the rejection loops of
`RandLim` are given explicit fuel and return `none` when the fuel runs out.
Assertion failures (Rust panics) are modelled as `Except.error`.

The historical root-crate revision of the library (`src/lib.rs` at the
repository root, which lacks the zero-limit check and degenerates empty
ranges) is embedded separately under `srcRoot`-prefixed names.
-/

/-- The observable state of a generator: the underlying native 64-bit word
stream and how many native draws have been consumed.  `draws i` is the `i`-th
word the concrete generator would produce; values are reduced `% 2^64` at the
draw site, so arbitrary `Nat` streams are allowed. -/
structure GenState where
  draws : Nat → Nat
  idx : Nat

/-- One native `next_u64` draw truncated to `w` bits: models `Rand::next_u16`
(`next_u64() as u16`, `w = 16`), `Rand::next_u32` (`w = 32`) and the native
`Rand::next_u64` itself (`w = 64`).  Exactly one native draw is consumed. -/
def next_word (w : Nat) (s : GenState) : Nat × GenState :=
  (s.draws s.idx % 2 ^ w, ⟨s.draws, s.idx + 1⟩)

/-- `Rand::next_u64`: the native draw. -/
def next_u64 (s : GenState) : Nat × GenState :=
  next_word 64 s

/-- `Rand::next_u16`, the default derivation `self.next_u64() as u16`. -/
def next_u16 (s : GenState) : Nat × GenState :=
  let (x, s1) := next_u64 s
  (x % 2 ^ 16, s1)

/-- `Rand::next_u32`, the default derivation `self.next_u64() as u32`. -/
def next_u32 (s : GenState) : Nat × GenState :=
  let (x, s1) := next_u64 s
  (x % 2 ^ 32, s1)

/-- `Rand::next_u128`, the default derivation
`u128::from(self.next_u64()) << 64 | u128::from(self.next_u64())`:
the first draw supplies the high-order half. -/
def next_u128 (s : GenState) : Nat × GenState :=
  let (a, s1) := next_u64 s
  let (b, s2) := next_u64 s1
  (a <<< 64 ||| b, s2)

/-- The panics tinyrand can raise on caller input: `assert_ne!(0, lim,
"zero limit")` in `RandLim::next_lim` and `assert!(!range.is_empty(),
"empty range")` in `RandRange::next_range`. -/
inductive RandErr where
  | zeroLimit : RandErr
  | emptyRange : RandErr
deriving DecidableEq

/-- The rejection threshold `lim.wrapping_neg() % lim` of `RandLim::next_lim`
at width `w`: `wrapping_neg` is two's-complement negation, `(2^w - lim) % 2^w`. -/
def lemireCutoff (w lim : Nat) : Nat :=
  (2 ^ w - lim) % 2 ^ w % lim

/-- The `while low < cutoff` rejection loop of `RandLim::next_lim` at width
`w`: each iteration draws a fresh word `x`, recomputes `full = x * lim` in
doubled-width arithmetic and `low = full` truncated to `w` bits.  On exit the
high half `full >> w` is returned.  `fuel` bounds the number of redraws;
`none` models a run that never exits within the fuel. -/
def lim_while (w lim cutoff full low : Nat) (s : GenState) : Nat → Option (Nat × GenState)
  | 0 => if low < cutoff then none else some (full / 2 ^ w, s)
  | fuel + 1 =>
    if low < cutoff then
      let (x, s1) := next_word w s
      lim_while w lim cutoff (x * lim) (x * lim % 2 ^ w) s1 fuel
    else some (full / 2 ^ w, s)

/-- `RandLim<uW>::next_lim` for the widths with a doubled-width accumulator
(`w = 16, 32, 64`, the three textually identical impls in `tinyrand/src/lib.rs`):
check `lim ≠ 0`, draw `x`, form `full = x * lim` and `low = full % 2^w`, and
if `low < lim` enter the rejection loop against `lemireCutoff`.  The
zero-limit panic is raised before any draw. -/
def next_lim (w lim : Nat) (s : GenState) (fuel : Nat) : Except RandErr (Option (Nat × GenState)) :=
  if lim = 0 then .error .zeroLimit
  else
    let (x, s1) := next_word w s
    let full := x * lim
    let low := full % 2 ^ w
    if low < lim then .ok (lim_while w lim (lemireCutoff w lim) full low s1 fuel)
    else .ok (some (full / 2 ^ w, s1))

/-- `cutoff_u128` from `tinyrand/src/lib.rs`: with `overhang =
(u128::MAX - lim + 1) % lim`, the cutoff is `u128::MAX - overhang`. -/
def cutoff_u128 (lim : Nat) : Nat :=
  let overhang := (2 ^ 128 - 1 - lim + 1) % lim
  2 ^ 128 - 1 - overhang

/-- The `loop` of `RandLim<u128>::next_lim` for limits above `u64::MAX`:
draw a full 128-bit word (two native draws), accept it when it is at most
`cutoff_u128 lim` and return `rand % lim`, otherwise retry. -/
def lim128_loop (lim cutoff : Nat) (s : GenState) : Nat → Option (Nat × GenState)
  | 0 => none
  | fuel + 1 =>
    let (rand, s1) := next_u128 s
    if rand ≤ cutoff then some (rand % lim, s1)
    else lim128_loop lim cutoff s1 fuel

/-- `RandLim<u128>::next_lim`: check `lim ≠ 0`; a limit that fits in 64 bits
is delegated to `RandLim<u64>::next_lim` (zero-extension of its result);
otherwise the full-width rejection loop against `cutoff_u128` runs. -/
def next_lim128 (lim : Nat) (s : GenState) (fuel : Nat) : Except RandErr (Option (Nat × GenState)) :=
  if lim = 0 then .error .zeroLimit
  else if lim ≤ 2 ^ 64 - 1 then next_lim 64 lim s fuel
  else .ok (lim128_loop lim (cutoff_u128 lim) s fuel)

/-- `RandRange<uW>::next_range` (`w = 16, 32, 64`): panic on an empty range
(`Range::is_empty` is `!(start < end)`), then `span = end - start` and
`start + next_lim(span)`. -/
def next_range (w lo hi : Nat) (s : GenState) (fuel : Nat) : Except RandErr (Option (Nat × GenState)) :=
  if lo < hi then
    let span := hi - lo
    match next_lim w span s fuel with
    | .error e => .error e
    | .ok none => .ok none
    | .ok (some (r, s1)) => .ok (some (lo + r, s1))
  else .error .emptyRange

/-- `RandRange<u128>::next_range`: same shape over `RandLim<u128>`. -/
def next_range128 (lo hi : Nat) (s : GenState) (fuel : Nat) : Except RandErr (Option (Nat × GenState)) :=
  if lo < hi then
    let span := hi - lo
    match next_lim128 span s fuel with
    | .error e => .error e
    | .ok none => .ok none
    | .ok (some (r, s1)) => .ok (some (lo + r, s1))
  else .error .emptyRange

/-- `RandLim<u64>::next_lim` of the historical root-crate revision
(`src/lib.rs` at the repository root): identical Lemire loop but with no
zero-limit check, so it cannot fail; with `lim = 0` the branch `low < lim`
is never taken and the call silently returns `0` after one draw. -/
def srcRootNextLim64 (lim : Nat) (s : GenState) (fuel : Nat) : Option (Nat × GenState) :=
  let (x, s1) := next_word 64 s
  let full := x * lim
  let low := full % 2 ^ 64
  if low < lim then lim_while 64 lim (lemireCutoff 64 lim) full low s1 fuel
  else some (full / 2 ^ 64, s1)

/-- `RandRange<u64>::next_range` of the historical root-crate revision:
an empty range is not an error, it returns `range.start` without drawing. -/
def srcRootNextRange64 (lo hi : Nat) (s : GenState) (fuel : Nat) : Option (Nat × GenState) :=
  if hi ≤ lo then some (lo, s)
  else
    let span := hi - lo
    match srcRootNextLim64 span s fuel with
    | none => none
    | some (r, s1) => some (lo + r, s1)

/-- Whether a fresh `w`-bit draw `x` exits the rejection logic of
`RandLim::next_lim` immediately: with `low = x * lim % 2^w`, the draw is kept
unless `low < lim` puts it in the bias region and `low` is below the
threshold `lemireCutoff w lim`. -/
def lemireAccept (w lim x : Nat) : Bool :=
  let low := x * lim % 2 ^ w
  if low < lim then lemireCutoff w lim ≤ low else true

/-- The value `RandLim::next_lim` returns for an accepted draw `x`:
the high half `(x * lim) >> w` of the doubled-width product. -/
def lemireOutput (w lim x : Nat) : Nat :=
  x * lim / 2 ^ w

/-- How many of the `2^w` possible `w`-bit draws are accepted by
`RandLim::next_lim` and produce the output value `v`. -/
def lemireCount (w lim v : Nat) : Nat :=
  ((Finset.range (2 ^ w)).filter fun x => lemireAccept w lim x = true ∧ lemireOutput w lim x = v).card

/-- How many of the `2^w` possible `w`-bit draws the rejection loop of
`RandLim::next_lim` rejects. -/
def rejectedCount (w lim : Nat) : Nat :=
  ((Finset.range (2 ^ w)).filter fun x => ¬ lemireAccept w lim x = true).card

/-- How many of the `2^128` possible 128-bit words are accepted by the
large-limit loop of `RandLim<u128>::next_lim` (`rand ≤ cutoff_u128 lim`) and
produce the output value `v = rand % lim`. -/
def bigCount (lim v : Nat) : Nat :=
  ((Finset.range (2 ^ 128)).filter fun r => r ≤ cutoff_u128 lim ∧ r % lim = v).card

/-- The 64-bit floating-point values relevant to this development: NaN, the
two infinities, and finite values modelled by exact rationals.  Every
floating-point operation the embedded code performs on these values
(comparison against `0.0` and `1.0`, multiplication by `0.0` or `1.0`,
conversion of `u64::MAX`) is exact in IEEE 754, so exact-rational arithmetic
agrees with the source on all values the claims exercise. -/
inductive F64 where
  | nan : F64
  | negInf : F64
  | posInf : F64
  | fin : ℚ → F64
deriving DecidableEq

/-- IEEE 754 `<=` on `F64`: any comparison against NaN is false. -/
def F64.le : F64 → F64 → Bool
  | .nan, _ => false
  | _, .nan => false
  | .negInf, _ => true
  | _, .negInf => false
  | _, .posInf => true
  | .posInf, _ => false
  | .fin a, .fin b => decide (a ≤ b)

/-- IEEE 754 `>=` on `F64`: `a >= b` holds exactly when `b <= a`. -/
def F64.ge (a b : F64) : Bool :=
  F64.le b a

/-- IEEE 754 multiplication restricted to the finite values this development
applies it to (products with `0.0` and `1.0` are exact, so no rounding step is
modelled); any combination involving a non-finite operand is collapsed to NaN,
which no claim exercises. -/
def F64.mul : F64 → F64 → F64
  | .fin a, .fin b => .fin (a * b)
  | _, _ => .nan

/-- `u64::MAX as f64`: the nearest double to `2^64 - 1` is exactly `2^64`. -/
def u64MaxAsF64 : F64 :=
  .fin (2 ^ 64)

/-- Rust `as u64` on an `f64`: a saturating, truncating cast.  NaN casts to 0,
values at or below 0 cast to 0, values at or above `u64::MAX` saturate to
`u64::MAX`, and other finite values are truncated toward zero. -/
def f64ToU64 : F64 → Nat
  | .nan => 0
  | .negInf => 0
  | .posInf => 2 ^ 64 - 1
  | .fin q =>
    if q ≤ 0 then 0
    else if (2 ^ 64 - 1 : ℚ) ≤ q then 2 ^ 64 - 1
    else ⌊q⌋.toNat

/-- `tinyrand::Probability`: a value object wrapping an `f64`. -/
structure Probability where
  val : F64
deriving DecidableEq

/-- Which bound a rejected `Probability::new` argument violated; the panic
messages are `p cannot be less than 0` and `p cannot be greater than 1`. -/
inductive Bound where
  | lower : Bound
  | upper : Bound
deriving DecidableEq

/-- The failure of `Probability::new`: an out-of-range argument, tagged with
the bound named in the panic message. -/
inductive ProbErr where
  | outOfRange : Bound → ProbErr
deriving DecidableEq

/-- `Probability::new`: assert `p >= 0` (panic `cannot be less than 0`
otherwise), then assert `p <= 1` (panic `cannot be greater than 1`
otherwise), then wrap `p` unchanged. -/
def Probability.new (p : F64) : Except ProbErr Probability :=
  if F64.ge p (.fin 0) then
    if F64.le p (.fin 1) then .ok ⟨p⟩
    else .error (.outOfRange .upper)
  else .error (.outOfRange .lower)

/-- `impl From of Probability for f64`: returns the wrapped value `p.0`. -/
def f64FromProbability (p : Probability) : F64 :=
  p.val

/-- `impl From of f64 for Probability`: delegates to `Probability::new`. -/
def probabilityFromF64 (p : F64) : Except ProbErr Probability :=
  Probability.new p

/-- `Rand::next_bool`: `cutoff = (p.0 * u64::MAX as f64) as u64`; draw one
native word; a draw equal to `u64::MAX` is replaced by `u64::MAX - 1`; the
result is `next < cutoff`. -/
def next_bool (p : Probability) (s : GenState) : Bool × GenState :=
  let cutoff := f64ToU64 (F64.mul p.val u64MaxAsF64)
  let (n, s1) := next_u64 s
  let n := if n = 2 ^ 64 - 1 then 2 ^ 64 - 1 - 1 else n
  (decide (n < cutoff), s1)

deriving instance DecidableEq for Except

example : next_lim 64 0 ⟨fun _ => 7, 0⟩ 5 = .error .zeroLimit := rfl

example : lemireCount 4 3 0 = 5 := by decide

example : lemireCount 4 3 1 = 5 := by decide

example : rejectedCount 4 3 = 1 := by decide

example : Probability.new (.fin 2) = .error (.outOfRange .upper) := by decide

example : Probability.new .nan = .error (.outOfRange .lower) := by decide

/-- A word split into a high and a low part: `or`-ing a left-shifted high part
with a low part that fits under the shift is plain addition. -/
theorem lor_high_low (n a b : Nat) (hb : b < 2 ^ n) : a * 2 ^ n ||| b = a * 2 ^ n + b := by
  induction n generalizing a b with
  | zero =>
    have hb0 : b = 0 := by omega
    subst hb0
    simp
  | succ n ih =>
    obtain ⟨c, m, rfl⟩ : ∃ c m, b = Nat.bit c m :=
      ⟨Nat.bodd b, Nat.div2 b, (Nat.bit_decomp b).symm⟩
    have hbit : ∀ (c : Bool) (m : Nat), Nat.bit c m = 2 * m + c.toNat := by
      intro c m
      cases c <;> simp [Nat.bit]
    have hp : (2 : Nat) ^ (n + 1) = 2 ^ n * 2 := pow_succ 2 n
    have hm : m < 2 ^ n := by
      rw [hbit] at hb
      have hc : c.toNat ≤ 1 := Bool.toNat_le c
      omega
    have ha : a * 2 ^ (n + 1) = Nat.bit false (a * 2 ^ n) := by
      rw [hbit, hp]
      simp
      ring
    calc a * 2 ^ (n + 1) ||| Nat.bit c m
        = Nat.bit false (a * 2 ^ n) ||| Nat.bit c m := by rw [ha]
      _ = Nat.bit (false || c) (a * 2 ^ n ||| m) := Nat.lor_bit false (a * 2 ^ n) c m
      _ = Nat.bit c (a * 2 ^ n + m) := by rw [Bool.false_or, ih a m hm]
      _ = a * 2 ^ (n + 1) + Nat.bit c m := by rw [hbit, hbit, hp]; ring

/-- Dividing a lower bound rounded up: `x` clears the ceiling of `K / L`
exactly when `x * L` clears `K`. -/
theorem ceil_div_le_iff (L K x : Nat) (hL : 0 < L) : (K + L - 1) / L ≤ x ↔ K ≤ x * L := by
  rcases Nat.eq_zero_or_pos K with hK | hK
  · subst hK
    have h1 : (L - 1) / L = 0 := Nat.div_eq_of_lt (by omega)
    simp [h1]
  · have h1 : K + L - 1 = (K - 1) + L := by omega
    rw [h1, Nat.add_div_right _ hL]
    constructor
    · intro h
      have h2 : (K - 1) / L < x := h
      rw [Nat.div_lt_iff_lt_mul hL] at h2
      omega
    · intro h
      have h2 : K - 1 < x * L := by omega
      rw [← Nat.div_lt_iff_lt_mul hL] at h2
      omega

/-- The strict counterpart of `ceil_div_le_iff`. -/
theorem lt_ceil_div_iff (L K x : Nat) (hL : 0 < L) : x < (K + L - 1) / L ↔ x * L < K := by
  rw [← Nat.not_le, ← Nat.not_le]
  exact not_congr (ceil_div_le_iff L K x hL)

/-- The rejection threshold of `RandLim::next_lim` equals `2^w mod lim`:
`wrapping_neg` of a nonzero `lim` is `2^w - lim`, which is congruent to `2^w`
modulo `lim`. -/
theorem lemireCutoff_eq (w lim : Nat) (h0 : 0 < lim) (hw : lim < 2 ^ w) :
    lemireCutoff w lim = 2 ^ w % lim := by
  unfold lemireCutoff
  rw [Nat.mod_eq_of_lt (a := 2 ^ w - lim) (b := 2 ^ w) (by omega)]
  conv_rhs => rw [← Nat.sub_add_cancel (Nat.le_of_lt hw), Nat.add_mod_right]

/-- A draw is kept by `RandLim::next_lim` exactly when its truncated product
clears the rejection threshold (the two branches of the code agree because the
threshold is below `lim`). -/
theorem lemireAccept_iff (w lim x : Nat) (h0 : 0 < lim) :
    lemireAccept w lim x = true ↔ lemireCutoff w lim ≤ x * lim % 2 ^ w := by
  have hc : lemireCutoff w lim < lim := Nat.mod_lt _ h0
  unfold lemireAccept
  by_cases h : x * lim % 2 ^ w < lim
  · simp only [h, if_pos, decide_eq_true_eq]
  · simp only [h, if_neg, decide_eq_true_eq]
    simp only [not_lt] at h
    constructor
    · intro _
      omega
    · intro _
      rfl

/-- An accepted draw with output `v` is exactly a draw whose doubled-width
product lies in `[v * 2^w + 2^w % lim, v * 2^w + 2^w)`. -/
theorem accept_output_iff (w lim v x : Nat) (h0 : 0 < lim) (hw : lim < 2 ^ w) :
    (lemireAccept w lim x = true ∧ lemireOutput w lim x = v) ↔
      v * 2 ^ w + 2 ^ w % lim ≤ x * lim ∧ x * lim < v * 2 ^ w + 2 ^ w := by
  have hN : 0 < 2 ^ w := Nat.pos_pow_of_pos w (by omega)
  have hmlt : x * lim % 2 ^ w < 2 ^ w := Nat.mod_lt _ hN
  rw [lemireAccept_iff w lim x h0, lemireCutoff_eq w lim h0 hw]
  unfold lemireOutput
  constructor
  · rintro ⟨hge, hv⟩
    subst hv
    constructor
    · calc x * lim / 2 ^ w * 2 ^ w + 2 ^ w % lim
          ≤ x * lim / 2 ^ w * 2 ^ w + x * lim % 2 ^ w := Nat.add_le_add_left hge _
        _ = x * lim := Nat.div_add_mod' (x * lim) (2 ^ w)
    · calc x * lim = x * lim / 2 ^ w * 2 ^ w + x * lim % 2 ^ w :=
          (Nat.div_add_mod' (x * lim) (2 ^ w)).symm
        _ < x * lim / 2 ^ w * 2 ^ w + 2 ^ w := Nat.add_lt_add_left hmlt _
  · rintro ⟨h1, h2⟩
    have hv : x * lim / 2 ^ w = v := by
      apply Nat.div_eq_of_lt_le
      · exact Nat.le_trans (Nat.le_add_right _ _) h1
      · rw [Nat.succ_mul]
        exact h2
    have hdm : v * 2 ^ w + x * lim % 2 ^ w = x * lim := by
      conv_rhs => rw [← Nat.div_add_mod' (x * lim) (2 ^ w), hv]
    refine ⟨?_, hv⟩
    have h3 : v * 2 ^ w + 2 ^ w % lim ≤ v * 2 ^ w + x * lim % 2 ^ w := by
      rw [hdm]
      exact h1
    exact Nat.le_of_add_le_add_left h3

/-- The accepted draws with output `v` form the integer interval between the
rounded-up multiples of `lim` bounding the product window. -/
theorem filter_accept_eq_Ico (w lim v : Nat) (h0 : 0 < lim) (hw : lim < 2 ^ w) (hv : v < lim) :
    ((Finset.range (2 ^ w)).filter fun x => lemireAccept w lim x = true ∧ lemireOutput w lim x = v)
      = Finset.Ico ((v * 2 ^ w + 2 ^ w % lim + lim - 1) / lim)
          ((v * 2 ^ w + 2 ^ w + lim - 1) / lim) := by
  ext x
  rw [Finset.mem_filter, Finset.mem_range, Finset.mem_Ico]
  rw [accept_output_iff w lim v x h0 hw]
  rw [ceil_div_le_iff lim (v * 2 ^ w + 2 ^ w % lim) x h0]
  rw [lt_ceil_div_iff lim (v * 2 ^ w + 2 ^ w) x h0]
  constructor
  · rintro ⟨_, h1, h2⟩
    exact ⟨h1, h2⟩
  · rintro ⟨h1, h2⟩
    refine ⟨?_, h1, h2⟩
    have h3 : v * 2 ^ w + 2 ^ w ≤ lim * 2 ^ w := by
      have h4 : (v + 1) * 2 ^ w ≤ lim * 2 ^ w := Nat.mul_le_mul_right _ hv
      rw [Nat.succ_mul] at h4
      exact h4
    have h5 : x * lim < lim * 2 ^ w := Nat.lt_of_lt_of_le h2 h3
    rw [Nat.mul_comm lim (2 ^ w)] at h5
    exact Nat.lt_of_mul_lt_mul_right h5

/-- The central Lemire count: for every output value `v < lim`, exactly
`⌊2^w / lim⌋` of the `2^w` possible draws are accepted and map to `v`. -/
theorem lemireCount_eq (w lim v : Nat) (h0 : 0 < lim) (hw : lim < 2 ^ w) (hv : v < lim) :
    lemireCount w lim v = 2 ^ w / lim := by
  unfold lemireCount
  rw [filter_accept_eq_Ico w lim v h0 hw hv, Nat.card_Ico]
  have hdm := Nat.div_add_mod (2 ^ w) lim
  have key : v * 2 ^ w + 2 ^ w + lim - 1
      = v * 2 ^ w + 2 ^ w % lim + lim - 1 + lim * (2 ^ w / lim) := by
    generalize v * 2 ^ w = u
    generalize hs : lim * (2 ^ w / lim) = s at hdm ⊢
    generalize 2 ^ w % lim = c at hdm ⊢
    omega
  rw [key, Nat.add_mul_div_left _ _ h0, Nat.add_sub_cancel_left]

/-- The total number of accepted draws at width `w` is `lim * ⌊2^w / lim⌋`. -/
theorem acceptedTotal (w lim : Nat) (h0 : 0 < lim) (hw : lim < 2 ^ w) :
    ((Finset.range (2 ^ w)).filter fun x => lemireAccept w lim x = true).card
      = lim * (2 ^ w / lim) := by
  have hmem : ∀ x ∈ (Finset.range (2 ^ w)).filter fun x => lemireAccept w lim x = true,
      lemireOutput w lim x ∈ Finset.range lim := by
    intro x hx
    rw [Finset.mem_filter, Finset.mem_range] at hx
    rw [Finset.mem_range]
    unfold lemireOutput
    rw [Nat.div_lt_iff_lt_mul (Nat.pos_pow_of_pos w (by omega))]
    rw [Nat.mul_comm lim (2 ^ w)]
    exact Nat.mul_lt_mul_of_lt_of_le hx.1 (Nat.le_refl lim) h0
  rw [Finset.card_eq_sum_card_fiberwise hmem]
  have hfib : ∀ v ∈ Finset.range lim,
      (((Finset.range (2 ^ w)).filter fun x => lemireAccept w lim x = true).filter
        fun x => lemireOutput w lim x = v).card = 2 ^ w / lim := by
    intro v hv
    rw [Finset.filter_filter]
    have := lemireCount_eq w lim v h0 hw (Finset.mem_range.mp hv)
    unfold lemireCount at this
    exact this
  rw [Finset.sum_congr rfl hfib, Finset.sum_const, Finset.card_range, smul_eq_mul]

/-- Exactly `2^w mod lim` of the `2^w` possible draws are rejected. -/
theorem rejectedCount_eq (w lim : Nat) (h0 : 0 < lim) (hw : lim < 2 ^ w) :
    rejectedCount w lim = 2 ^ w % lim := by
  have hsplit := Finset.filter_card_add_filter_neg_card_eq_card
    (s := Finset.range (2 ^ w)) fun x => lemireAccept w lim x = true
  rw [Finset.card_range, acceptedTotal w lim h0 hw] at hsplit
  unfold rejectedCount
  have hdm := Nat.div_add_mod (2 ^ w) lim
  generalize hs : lim * (2 ^ w / lim) = s at hsplit hdm
  generalize hr : ((Finset.range (2 ^ w)).filter fun x => ¬ lemireAccept w lim x = true).card
    = r at hsplit ⊢
  omega

/-- Strictly fewer than half of all `w`-bit words are rejected, for every
`lim` with `0 < lim < 2^w`. -/
theorem rejected_lt_half (w lim : Nat) (h0 : 0 < lim) (hw : lim < 2 ^ w) :
    2 * rejectedCount w lim < 2 ^ w := by
  rw [rejectedCount_eq w lim h0 hw]
  rcases le_or_lt (2 * lim) (2 ^ w) with h | h
  · have h1 : 2 ^ w % lim < lim := Nat.mod_lt _ h0
    generalize 2 ^ w % lim = r at h1 ⊢
    omega
  · have h1 : 2 ^ w % lim = 2 ^ w - lim := by
      rw [Nat.mod_eq_sub_mod (Nat.le_of_lt hw)]
      exact Nat.mod_eq_of_lt (by omega)
    omega

/-- One past `cutoff_u128 lim` is the largest multiple of `lim` not
exceeding `2^128`. -/
theorem cutoff_u128_succ (lim : Nat) (h0 : 0 < lim) (hw : lim < 2 ^ 128) :
    cutoff_u128 lim + 1 = lim * (2 ^ 128 / lim) := by
  show 2 ^ 128 - 1 - (2 ^ 128 - 1 - lim + 1) % lim + 1 = lim * (2 ^ 128 / lim)
  have h1 : 2 ^ 128 - 1 - lim + 1 = 2 ^ 128 - lim := by omega
  rw [h1]
  have h2 : (2 ^ 128 - lim) % lim = 2 ^ 128 % lim := by
    conv_rhs => rw [← Nat.sub_add_cancel (Nat.le_of_lt hw), Nat.add_mod_right]
  rw [h2]
  have hdm := Nat.div_add_mod (2 ^ 128) lim
  have hlt : 2 ^ 128 % lim < lim := Nat.mod_lt _ h0
  generalize hs : lim * (2 ^ 128 / lim) = s at hdm ⊢
  generalize 2 ^ 128 % lim = r at hdm hlt ⊢
  omega

/-- In a block of `q` consecutive multiples of `L`, each residue `v < L`
occurs exactly `q` times. -/
theorem count_mod_eq (L q v : Nat) (hv : v < L) :
    ((Finset.range (L * q)).filter fun r => r % L = v).card = q := by
  have hL : 0 < L := by omega
  have himg : (Finset.range (L * q)).filter (fun r => r % L = v)
      = (Finset.range q).image fun i => v + L * i := by
    ext r
    simp only [Finset.mem_filter, Finset.mem_range, Finset.mem_image]
    constructor
    · rintro ⟨hr, hmod⟩
      refine ⟨r / L, ?_, ?_⟩
      · rw [Nat.div_lt_iff_lt_mul hL]
        rw [Nat.mul_comm] at hr
        exact hr
      · conv_rhs => rw [← Nat.div_add_mod r L, hmod]
        exact Nat.add_comm _ _
    · rintro ⟨i, hi, rfl⟩
      constructor
      · calc v + L * i < L + L * i := Nat.add_lt_add_right hv _
          _ = L * (i + 1) := by ring
          _ ≤ L * q := Nat.mul_le_mul_left L hi
      · rw [Nat.add_mul_mod_self_left]
        exact Nat.mod_eq_of_lt hv
  rw [himg, Finset.card_image_of_injective _ ?_, Finset.card_range]
  intro i j hij
  simp only at hij
  have := Nat.add_left_cancel hij
  exact Nat.eq_of_mul_eq_mul_left hL this

/-- The analogous count for the large-limit 128-bit loop: each output
value `v < lim` is produced by exactly `⌊2^128 / lim⌋` accepted words. -/
theorem bigCount_eq (lim v : Nat) (h0 : 0 < lim) (hw : lim < 2 ^ 128) (hv : v < lim) :
    bigCount lim v = 2 ^ 128 / lim := by
  unfold bigCount
  have hcut : cutoff_u128 lim < 2 ^ 128 := by
    have h1 : cutoff_u128 lim ≤ 2 ^ 128 - 1 := Nat.sub_le _ _
    omega
  have hset : (Finset.range (2 ^ 128)).filter (fun r => r ≤ cutoff_u128 lim ∧ r % lim = v)
      = (Finset.range (cutoff_u128 lim + 1)).filter fun r => r % lim = v := by
    ext r
    simp only [Finset.mem_filter, Finset.mem_range]
    constructor
    · rintro ⟨h1, h2, h3⟩
      exact ⟨by omega, h3⟩
    · rintro ⟨h1, h2⟩
      exact ⟨by omega, by omega, h2⟩
  rw [hset, cutoff_u128_succ lim h0 hw, count_mod_eq lim _ v hv]

/-- The rejection loop exits at once whenever the current truncated product
clears the threshold, regardless of fuel. -/
theorem lim_while_exit (w lim cutoff full low : Nat) (s : GenState) (fuel : Nat)
    (h : ¬ low < cutoff) :
    lim_while w lim cutoff full low s fuel = some (full / 2 ^ w, s) := by
  cases fuel <;> simp [lim_while, h]

/-- When the first draw is accepted, `next_lim` returns its output after
exactly one draw, for any fuel. -/
theorem next_lim_first_accepted (w lim : Nat) (s : GenState) (fuel : Nat) (h0 : 0 < lim)
    (hacc : lemireAccept w lim (s.draws s.idx % 2 ^ w) = true) :
    next_lim w lim s fuel
      = .ok (some (lemireOutput w lim (s.draws s.idx % 2 ^ w), ⟨s.draws, s.idx + 1⟩)) := by
  have hx : lemireCutoff w lim ≤ s.draws s.idx % 2 ^ w * lim % 2 ^ w :=
    (lemireAccept_iff w lim _ h0).mp hacc
  show (if lim = 0 then (.error .zeroLimit : Except RandErr (Option (Nat × GenState)))
      else if s.draws s.idx % 2 ^ w * lim % 2 ^ w < lim then
        .ok (lim_while w lim (lemireCutoff w lim) (s.draws s.idx % 2 ^ w * lim)
          (s.draws s.idx % 2 ^ w * lim % 2 ^ w) ⟨s.draws, s.idx + 1⟩ fuel)
      else .ok (some (s.draws s.idx % 2 ^ w * lim / 2 ^ w, ⟨s.draws, s.idx + 1⟩)))
    = .ok (some (s.draws s.idx % 2 ^ w * lim / 2 ^ w, ⟨s.draws, s.idx + 1⟩))
  rw [if_neg (by omega : ¬ lim = 0)]
  by_cases h : s.draws s.idx % 2 ^ w * lim % 2 ^ w < lim
  · rw [if_pos h, lim_while_exit _ _ _ _ _ _ _ (by omega)]
  · rw [if_neg h]

/-- When the first draw is rejected, one unit of fuel is spent and `next_lim`
continues exactly as a fresh call on the advanced state. -/
theorem next_lim_rejected_step (w lim : Nat) (s : GenState) (fuel : Nat) (h0 : 0 < lim)
    (hrej : lemireAccept w lim (s.draws s.idx % 2 ^ w) = false) :
    next_lim w lim s (fuel + 1) = next_lim w lim ⟨s.draws, s.idx + 1⟩ fuel := by
  have h1 : s.draws s.idx % 2 ^ w * lim % 2 ^ w < lemireCutoff w lim := by
    have h2 := lemireAccept_iff w lim (s.draws s.idx % 2 ^ w) h0
    rw [hrej] at h2
    simp only [Bool.false_eq_true, false_iff, not_le] at h2
    exact h2
  have hc : lemireCutoff w lim < lim := Nat.mod_lt _ h0
  have hlow : s.draws s.idx % 2 ^ w * lim % 2 ^ w < lim := by omega
  show (if lim = 0 then (.error .zeroLimit : Except RandErr (Option (Nat × GenState)))
      else if s.draws s.idx % 2 ^ w * lim % 2 ^ w < lim then
        .ok (lim_while w lim (lemireCutoff w lim) (s.draws s.idx % 2 ^ w * lim)
          (s.draws s.idx % 2 ^ w * lim % 2 ^ w) ⟨s.draws, s.idx + 1⟩ (fuel + 1))
      else .ok (some (s.draws s.idx % 2 ^ w * lim / 2 ^ w, ⟨s.draws, s.idx + 1⟩)))
    = next_lim w lim ⟨s.draws, s.idx + 1⟩ fuel
  rw [if_neg (by omega : ¬ lim = 0), if_pos hlow]
  have hstep : lim_while w lim (lemireCutoff w lim) (s.draws s.idx % 2 ^ w * lim)
      (s.draws s.idx % 2 ^ w * lim % 2 ^ w) ⟨s.draws, s.idx + 1⟩ (fuel + 1)
      = lim_while w lim (lemireCutoff w lim) (s.draws (s.idx + 1) % 2 ^ w * lim)
        (s.draws (s.idx + 1) % 2 ^ w * lim % 2 ^ w) ⟨s.draws, s.idx + 1 + 1⟩ fuel := by
    rw [lim_while, if_pos h1]
    rfl
  rw [hstep]
  show _ = (if lim = 0 then (.error .zeroLimit : Except RandErr (Option (Nat × GenState)))
      else if s.draws (s.idx + 1) % 2 ^ w * lim % 2 ^ w < lim then
        .ok (lim_while w lim (lemireCutoff w lim) (s.draws (s.idx + 1) % 2 ^ w * lim)
          (s.draws (s.idx + 1) % 2 ^ w * lim % 2 ^ w) ⟨s.draws, s.idx + 1 + 1⟩ fuel)
      else .ok (some (s.draws (s.idx + 1) % 2 ^ w * lim / 2 ^ w, ⟨s.draws, s.idx + 1 + 1⟩)))
  rw [if_neg (by omega : ¬ lim = 0)]
  by_cases h2 : s.draws (s.idx + 1) % 2 ^ w * lim % 2 ^ w < lim
  · rw [if_pos h2]
  · rw [if_neg h2, lim_while_exit _ _ _ _ _ _ _ (by omega)]

/-- A full run of `RandLim::next_lim`: when the draws at offsets `0..j` are
rejected and the draw at offset `j` is accepted (within fuel), the call
returns the accepted draw's output having consumed exactly `j + 1` draws. -/
theorem next_lim_run (w lim : Nat) (h0 : 0 < lim) (j : Nat) :
    ∀ (s : GenState) (fuel : Nat), j ≤ fuel →
    (∀ i, i < j → lemireAccept w lim (s.draws (s.idx + i) % 2 ^ w) = false) →
    lemireAccept w lim (s.draws (s.idx + j) % 2 ^ w) = true →
    next_lim w lim s fuel
      = .ok (some (lemireOutput w lim (s.draws (s.idx + j) % 2 ^ w), ⟨s.draws, s.idx + j + 1⟩)) := by
  induction j with
  | zero =>
    intro s fuel _ _ hacc
    exact next_lim_first_accepted w lim s fuel h0 hacc
  | succ j ih =>
    intro s fuel hj hrej hacc
    obtain ⟨fuel, rfl⟩ : ∃ f, fuel = f + 1 := ⟨fuel - 1, by omega⟩
    rw [next_lim_rejected_step w lim s fuel h0 (by simpa using hrej 0 (by omega))]
    have hres := ih ⟨s.draws, s.idx + 1⟩ fuel (by omega)
      (fun i hi => by
        have := hrej (i + 1) (by omega)
        simpa [Nat.add_assoc, Nat.add_comm 1 i] using this)
      (by
        have e1 : s.idx + 1 + j = s.idx + (j + 1) := by omega
        simpa [e1] using hacc)
    have e1 : s.idx + 1 + j = s.idx + (j + 1) := by omega
    rw [hres, e1]

/-- For a power-of-two limit below the width, the rejection threshold is zero,
so every first draw is accepted. -/
theorem lemireAccept_pow2 (w k lim x : Nat) (h0 : 0 < lim) (hw : lim < 2 ^ w)
    (hk : lim = 2 ^ k) : lemireAccept w lim x = true := by
  rw [lemireAccept_iff w lim x h0, lemireCutoff_eq w lim h0 hw]
  have hkw : k ≤ w := by
    by_contra hgt
    have : 2 ^ w < 2 ^ k := Nat.pow_lt_pow_right (by omega) (by omega)
    omega
  have hdvd : lim ∣ 2 ^ w := by
    rw [hk]
    exact pow_dvd_pow 2 hkw
  obtain ⟨c, hc2⟩ := hdvd
  rw [hc2, Nat.mul_mod_right]
  exact Nat.zero_le _

/-- Claim C1: for every nonzero limit below the width bound, `next_lim` is
uniform over `[0, lim)` — over the finite space of accepted `w`-bit draws,
every output value is produced by exactly the same number of accepted draws,
namely `⌊2^w / lim⌋` (so each value has probability exactly `1/lim` among
accepted draws); and the large-limit 128-bit variant produces every output
value from exactly `⌊2^128 / lim⌋` accepted words. -/
theorem next_lim_uniform (w lim v₁ v₂ : Nat) (h0 : 0 < lim) (hw : lim < 2 ^ w)
    (h1 : v₁ < lim) (h2 : v₂ < lim) :
    lemireCount w lim v₁ = 2 ^ w / lim ∧ lemireCount w lim v₁ = lemireCount w lim v₂
    ∧ (2 ^ 64 - 1 < lim → lim < 2 ^ 128 → bigCount lim v₁ = 2 ^ 128 / lim) := by
  refine ⟨lemireCount_eq w lim v₁ h0 hw h1, ?_, ?_⟩
  · rw [lemireCount_eq w lim v₁ h0 hw h1, lemireCount_eq w lim v₂ h0 hw h2]
  · intro _ hlt
    exact bigCount_eq lim v₁ h0 hlt h1

/-- Witness for the uniformity theorem at `w = 65`, `lim = 2^64` (large
enough to make the 128-bit conjunct non-vacuous). -/
theorem next_lim_uniform_w :
    lemireCount 65 (2 ^ 64) 0 = 2 ^ 65 / 2 ^ 64
    ∧ lemireCount 65 (2 ^ 64) 0 = lemireCount 65 (2 ^ 64) 1
    ∧ (2 ^ 64 - 1 < 2 ^ 64 → 2 ^ 64 < 2 ^ 128 → bigCount (2 ^ 64) 0 = 2 ^ 128 / 2 ^ 64) :=
  next_lim_uniform 65 (2 ^ 64) 0 1 (by norm_num) (by norm_num) (by norm_num) (by norm_num)

/-- Claim C2 counterexample: in the current tinyrand crate an empty range is
an error — `next_range` over `5..5` fails with the `empty range` panic and in
particular does not return `5`. -/
theorem next_range_empty_counterexample :
    next_range 64 5 5 ⟨fun _ => 0, 0⟩ 0 = .error .emptyRange
    ∧ ∀ s1 : GenState, next_range 64 5 5 ⟨fun _ => 0, 0⟩ 0 ≠ .ok (some (5, s1)) := by
  refine ⟨rfl, ?_⟩
  intro s1 h
  have h2 : (Except.error RandErr.emptyRange : Except RandErr (Option (Nat × GenState)))
      = .ok (some (5, s1)) := h
  exact Except.noConfusion h2

/-- Claim C2 (amended): in the current tinyrand crate, `next_range` on an
empty range (`low == high`) fails with the `empty range` condition at every
width, consuming no entropy; only the historical root-crate revision returns
`low` unchanged without drawing. -/
theorem next_range_empty_behaviour (w lo : Nat) (s : GenState) (fuel : Nat) :
    next_range w lo lo s fuel = .error .emptyRange
    ∧ next_range128 lo lo s fuel = .error .emptyRange
    ∧ srcRootNextRange64 lo lo s fuel = some (lo, s) := by
  refine ⟨?_, ?_, ?_⟩
  · unfold next_range
    rw [if_neg (lt_irrefl lo)]
  · unfold next_range128
    rw [if_neg (lt_irrefl lo)]
  · unfold srcRootNextRange64
    rw [if_pos (le_refl lo)]

/-- Claim C3: at every width, `next_lim 0` fails with the zero-limit
condition; the check precedes any draw, so the result is the error for every
state and fuel, and no word is consumed. -/
theorem next_lim_zero_fails (w : Nat) (s : GenState) (fuel : Nat) :
    next_lim w 0 s fuel = .error .zeroLimit ∧ next_lim128 0 s fuel = .error .zeroLimit :=
  ⟨rfl, rfl⟩

/-- Claim C4: `next_bool` with probability `0.0` is `false` for every
underlying draw, and with probability `1.0` is `true` for every underlying
draw, the maximum word included. -/
theorem next_bool_extremes (s : GenState) (p0 p1 : Probability)
    (hp0 : Probability.new (.fin 0) = .ok p0) (hp1 : Probability.new (.fin 1) = .ok p1) :
    (next_bool p0 s).1 = false ∧ (next_bool p1 s).1 = true := by
  have hnew0 : Probability.new (.fin 0) = .ok ⟨.fin 0⟩ := by
    norm_num [Probability.new, F64.ge, F64.le]
  have hnew1 : Probability.new (.fin 1) = .ok ⟨.fin 1⟩ := by
    norm_num [Probability.new, F64.ge, F64.le]
  rw [hnew0] at hp0
  rw [hnew1] at hp1
  injection hp0 with hq0
  injection hp1 with hq1
  subst hq0
  subst hq1
  constructor
  · have hcut : f64ToU64 (F64.mul (F64.fin 0) u64MaxAsF64) = 0 := by
      norm_num [F64.mul, u64MaxAsF64, f64ToU64]
    show decide ((if (next_u64 s).1 = 2 ^ 64 - 1 then 2 ^ 64 - 1 - 1 else (next_u64 s).1)
        < f64ToU64 (F64.mul (F64.fin 0) u64MaxAsF64)) = false
    rw [hcut]
    simp
  · have hcut : f64ToU64 (F64.mul (F64.fin 1) u64MaxAsF64) = 2 ^ 64 - 1 := by
      norm_num [F64.mul, u64MaxAsF64, f64ToU64]
    have hn : (next_u64 s).1 < 2 ^ 64 := Nat.mod_lt _ (by norm_num)
    show decide ((if (next_u64 s).1 = 2 ^ 64 - 1 then 2 ^ 64 - 1 - 1 else (next_u64 s).1)
        < f64ToU64 (F64.mul (F64.fin 1) u64MaxAsF64)) = true
    rw [hcut]
    simp only [decide_eq_true_eq]
    by_cases h : (next_u64 s).1 = 2 ^ 64 - 1
    · rw [if_pos h]
      omega
    · rw [if_neg h]
      omega

/-- Witness for the Bernoulli extremes, with the underlying draw pinned at
the maximum word value. -/
theorem next_bool_extremes_w :
    (next_bool ⟨F64.fin 0⟩ ⟨fun _ => 2 ^ 64 - 1, 0⟩).1 = false
    ∧ (next_bool ⟨F64.fin 1⟩ ⟨fun _ => 2 ^ 64 - 1, 0⟩).1 = true :=
  next_bool_extremes ⟨fun _ => 2 ^ 64 - 1, 0⟩ ⟨F64.fin 0⟩ ⟨F64.fin 1⟩ (by decide) (by decide)

/-- Claim C5: the default width derivations are exact — `next_u16` and
`next_u32` are the low 16 and 32 bits of a single native `next_u64` draw
(state advanced by exactly one draw, stream untouched), and `next_u128` is
`first * 2^64 + second` over exactly two consecutive native draws with the
first draw in the high-order half. -/
theorem width_derivation_exact (s : GenState) :
    (next_u16 s).1 = (next_u64 s).1 % 2 ^ 16 ∧ (next_u16 s).2 = (next_u64 s).2
    ∧ (next_u32 s).1 = (next_u64 s).1 % 2 ^ 32 ∧ (next_u32 s).2 = (next_u64 s).2
    ∧ (next_u64 s).2.draws = s.draws ∧ (next_u64 s).2.idx = s.idx + 1
    ∧ (next_u128 s).1 = (next_u64 s).1 * 2 ^ 64 + (next_u64 (next_u64 s).2).1
    ∧ (next_u128 s).2 = (next_u64 (next_u64 s).2).2
    ∧ (next_u128 s).2.draws = s.draws ∧ (next_u128 s).2.idx = s.idx + 2 := by
  refine ⟨rfl, rfl, rfl, rfl, rfl, rfl, ?_, rfl, rfl, rfl⟩
  show (s.draws s.idx % 2 ^ 64) <<< 64 ||| s.draws (s.idx + 1) % 2 ^ 64
      = s.draws s.idx % 2 ^ 64 * 2 ^ 64 + s.draws (s.idx + 1) % 2 ^ 64
  rw [Nat.shiftLeft_eq]
  exact lor_high_low 64 _ _ (Nat.mod_lt _ (by norm_num))

/-- Claim C6: for every nonzero limit below the width bound, strictly fewer
than half of all `w`-bit words are rejected (so the loop terminates with
probability 1 and the expected number of draws is below 2); and for a
power-of-two limit the rejection region is empty — `next_lim` consumes
exactly one draw for every state and any fuel. -/
theorem next_lim_rejection_bound (w lim : Nat) (h0 : 0 < lim) (hw : lim < 2 ^ w) :
    2 * rejectedCount w lim < 2 ^ w
    ∧ ∀ k, lim = 2 ^ k → ∀ (s : GenState) (fuel : Nat),
        next_lim w lim s fuel
          = .ok (some (lemireOutput w lim (s.draws s.idx % 2 ^ w), ⟨s.draws, s.idx + 1⟩)) := by
  refine ⟨rejected_lt_half w lim h0 hw, ?_⟩
  intro k hk s fuel
  exact next_lim_first_accepted w lim s fuel h0 (lemireAccept_pow2 w k lim _ h0 hw hk)

/-- Witness for the rejection bound at `w = 3`, `lim = 4 = 2^2`. -/
theorem next_lim_rejection_bound_w :
    2 * rejectedCount 3 4 < 2 ^ 3
    ∧ ∀ k, 4 = 2 ^ k → ∀ (s : GenState) (fuel : Nat),
        next_lim 3 4 s fuel
          = .ok (some (lemireOutput 3 4 (s.draws s.idx % 2 ^ 3), ⟨s.draws, s.idx + 1⟩)) :=
  next_lim_rejection_bound 3 4 (by norm_num) (by norm_num)

/-- Claim C7: for a nonzero limit that fits in 64 bits, the 128-bit sampler
delegates to the 64-bit sampler — same draws, same state, and the result is
the (zero-extended, here identical) 64-bit result, hence the identical
distribution. -/
theorem next_lim128_delegates (lim : Nat) (s : GenState) (fuel : Nat)
    (h0 : 0 < lim) (hle : lim ≤ 2 ^ 64 - 1) :
    next_lim128 lim s fuel = next_lim 64 lim s fuel := by
  unfold next_lim128
  rw [if_neg (by omega), if_pos hle]

/-- Witness for the delegation at `lim = 5`. -/
theorem next_lim128_delegates_w :
    next_lim128 5 ⟨fun i => i, 0⟩ 3 = next_lim 64 5 ⟨fun i => i, 0⟩ 3 :=
  next_lim128_delegates 5 ⟨fun i => i, 0⟩ 3 (by norm_num) (by norm_num)

/-- Claim C8: `Probability::new p` succeeds wrapping exactly `p` if and only
if `0 <= p` and `p <= 1` under the floating-point comparisons the code
performs; otherwise it fails with the out-of-range condition naming the
violated bound — lower when `p >= 0` fails (NaN included), upper when
`p >= 0` holds but `p <= 1` fails. -/
theorem probability_new_spec (p : F64) :
    (Probability.new p = .ok ⟨p⟩ ↔ F64.ge p (.fin 0) = true ∧ F64.le p (.fin 1) = true)
    ∧ (F64.ge p (.fin 0) = false → Probability.new p = .error (.outOfRange .lower))
    ∧ (F64.ge p (.fin 0) = true → F64.le p (.fin 1) = false →
        Probability.new p = .error (.outOfRange .upper)) := by
  unfold Probability.new
  refine ⟨?_, ?_, ?_⟩
  · constructor
    · intro h
      rcases hg : F64.ge p (.fin 0) with _ | _ <;> rcases hl : F64.le p (.fin 1) with _ | _ <;>
        simp [hg, hl] at h ⊢
    · rintro ⟨hg, hl⟩
      simp [hg, hl]
  · intro hg
    simp [hg]
  · intro hg hl
    simp [hg, hl]

/-- Witness for the probability constructor at `p = 2.0` (upper bound). -/
theorem probability_new_spec_w :
    F64.ge (F64.fin 2) (F64.fin 0) = true ∧ F64.le (F64.fin 2) (F64.fin 1) = false
    ∧ Probability.new (F64.fin 2) = .error (.outOfRange .upper) :=
  ⟨by decide, by decide, (probability_new_spec (F64.fin 2)).2.2 (by decide) (by decide)⟩

/-- Claim C9 counterexample: conversion from `f64` to `Probability` is not
total — at `p = 2.0` it fails with the out-of-range condition instead of
succeeding. -/
theorem prob_from_f64_not_total :
    probabilityFromF64 (F64.fin 2) = .error (.outOfRange .upper)
    ∧ ∀ q : Probability, probabilityFromF64 (F64.fin 2) ≠ .ok q := by
  refine ⟨by decide, ?_⟩
  intro q h
  rw [show probabilityFromF64 (F64.fin 2) = .error (.outOfRange .upper) from by decide] at h
  exact Except.noConfusion h

/-- Claim C9 (amended): conversion from `Probability` to `f64` is total and
loss-free; conversion from `f64` to `Probability` is loss-free whenever it
succeeds, and it succeeds exactly on `[0, 1]` — for every `p` in range the
round trip returns exactly `p`. -/
theorem prob_roundtrip_amended (p : F64) (hge : F64.ge p (.fin 0) = true)
    (hle : F64.le p (.fin 1) = true) :
    probabilityFromF64 p = .ok ⟨p⟩
    ∧ f64FromProbability ⟨p⟩ = p
    ∧ ∀ q : Probability, f64FromProbability q = q.val := by
  refine ⟨?_, rfl, fun q => rfl⟩
  unfold probabilityFromF64 Probability.new
  simp [hge, hle]

/-- Witness for the amended round trip at `p = 1.0`. -/
theorem prob_roundtrip_amended_w :
    probabilityFromF64 (F64.fin 1) = .ok ⟨F64.fin 1⟩
    ∧ f64FromProbability ⟨F64.fin 1⟩ = F64.fin 1
    ∧ ∀ q : Probability, f64FromProbability q = q.val :=
  prob_roundtrip_amended (F64.fin 1) (by decide) (by decide)

/-- Claim C10: the checked constructor rejects NaN — `Probability::new NaN`
fails the lower-bound assertion, and any probability built through the
checked path never holds NaN. -/
theorem probability_checked_never_nan (p : F64) (q : Probability)
    (h : Probability.new p = .ok q) :
    q.val ≠ F64.nan ∧ Probability.new F64.nan = .error (.outOfRange .lower) := by
  refine ⟨?_, by decide⟩
  unfold Probability.new at h
  rcases hg : F64.ge p (.fin 0) with _ | _
  · rw [hg] at h
    simp at h
  · rcases hl : F64.le p (.fin 1) with _ | _
    · rw [hg, hl] at h
      simp at h
    · rw [hg, hl] at h
      simp at h
      subst h
      show p ≠ F64.nan
      intro hp
      subst hp
      simp [F64.ge, F64.le] at hg

/-- Witness for the NaN rejection at `p = 0.0`. -/
theorem probability_checked_never_nan_w :
    Probability.val ⟨F64.fin 0⟩ ≠ F64.nan
    ∧ Probability.new F64.nan = .error (.outOfRange .lower) :=
  probability_checked_never_nan (F64.fin 0) ⟨F64.fin 0⟩ (by decide)
